import Mathlib

/-!
Shallow embedding of the mesos_exporter master-state collector
(src/master_state.go) for verification of its specification.

Strings are modelled as lists of characters (the Go code works on byte
slices; all inputs of interest are ASCII).  Go's uint64 is modelled as Nat
with explicit reduction modulo 2^64 where the code's arithmetic can wrap.
Go's float64 resource quantities are modelled as rationals: the only
arithmetic performed on them is multiplication by 1024, a power of two,
which is exact in binary floating point whenever it does not overflow.
-/

/-- Character predicate for the cutset of `bytes.Trim(data, "[]\"")` in
ranges.UnmarshalJSON: the characters stripped from both ends. -/
def isRangeCut (c : Char) : Bool :=
  c = '[' || c = ']' || c = '"'

/-- Character predicate for white space as trimmed by `bytes.TrimSpace`
(Latin-1 portion of unicode.IsSpace; the inputs of interest are ASCII). -/
def isGoSpace (c : Char) : Bool :=
  c = ' ' || c = '\t' || c = '\n' || c = '\x0b' || c = '\x0c' || c = '\r' ||
    c = '\x85' || c = '\xa0'

/-- Drop every trailing character satisfying p (helper for the Trim model). -/
def trimRight (p : Char → Bool) (l : List Char) : List Char :=
  (l.reverse.dropWhile p).reverse

/-- Model of Go's `bytes.Trim` / `bytes.TrimSpace`: drop every leading and
every trailing character satisfying p. -/
def trimChars (p : Char → Bool) (l : List Char) : List Char :=
  trimRight p (l.dropWhile p)

/-- Model of `bytes.Split(data, []byte(","))` for a one-character
separator: split at every occurrence of sep.  On the empty list it yields
one empty piece, as Go does. -/
def splitOnChar (sep : Char) : List Char → List (List Char)
  | [] => [[]]
  | c :: cs =>
    match splitOnChar sep cs with
    | [] => [[c]]
    | t :: ts => if c = sep then [] :: t :: ts else (c :: t) :: ts

/-- Model of `bytes.SplitN(r, []byte("-"), 2)`: split at the first
occurrence of sep into exactly two pieces; none when sep does not occur
(the Go call then returns a one-element slice, which the code rejects). -/
def splitN2 (sep : Char) : List Char → Option (List Char × List Char)
  | [] => none
  | c :: cs =>
    if c = sep then some ([], cs)
    else
      match splitN2 sep cs with
      | none => none
      | some (a, b) => some (c :: a, b)

/-- Numeric value of a decimal digit character. -/
def digitVal (c : Char) : Nat := c.toNat - 48

/-- Model of `strconv.ParseUint(s, 10, 64)`: the string must be non-empty
and consist solely of decimal digits (ParseUint permits no sign), and the
value must fit in 64 bits; otherwise the call errors (modelled as none). -/
def parseUint10 (l : List Char) : Option Nat :=
  if l.isEmpty then none
  else if l.all Char.isDigit then
    let v := l.foldl (fun acc c => acc * 10 + digitVal c) 0
    if v < 2 ^ 64 then some v else none
  else none

/-- One token of a range list, as processed by the loop body of
ranges.UnmarshalJSON: split on the first dash, trim white space from both
parts, parse both as uint64.  none models the error returns. -/
def tokenVal (t : List Char) : Option (Nat × Nat) :=
  match splitN2 '-' t with
  | none => none
  | some (a, b) =>
    match parseUint10 (trimChars isGoSpace a), parseUint10 (trimChars isGoSpace b) with
    | some lo, some hi => some (lo, hi)
    | _, _ => none

/-- The token loop of ranges.UnmarshalJSON.  The receiver rs is threaded
through: each well-formed token is appended as it is decoded, and the
first malformed token stops the loop with an error (Bool false), leaving
the receiver with everything appended so far — exactly the Go code, which
mutates `*rs` in place and returns at the first failure. -/
def unmarshalTokens (rs : List (Nat × Nat)) : List (List Char) → Bool × List (Nat × Nat)
  | [] => (true, rs)
  | t :: ts =>
    match tokenVal t with
    | none => (false, rs)
    | some rng => unmarshalTokens (rs ++ [rng]) ts

/-- Model of ranges.UnmarshalJSON: trim every surrounding '[', ']', '"'
character; an input left empty decodes to no change (success); otherwise
split on ',' and run the token loop.  The Bool is true iff the method
returns a nil error; the list is the final contents of the receiver. -/
def unmarshalJSON (rs : List (Nat × Nat)) (data : List Char) : Bool × List (Nat × Nat) :=
  let d := trimChars isRangeCut data
  if d.isEmpty then (true, rs) else unmarshalTokens rs (splitOnChar ',' d)

/-- Addition as Go uint64 addition (wrap modulo 2^64). -/
def u64add (a b : Nat) : Nat := (a + b) % 2 ^ 64

/-- Subtraction as Go uint64 subtraction (wrap modulo 2^64). -/
def u64sub (a b : Nat) : Nat := (a % 2 ^ 64 + (2 ^ 64 - b % 2 ^ 64)) % 2 ^ 64

/-- Model of ranges.size: `sz += 1 + (rs[i][1] - rs[i][0])` with every
operation in uint64 arithmetic. -/
def size (rs : List (Nat × Nat)) : Nat :=
  rs.foldl (fun sz p => u64add sz (u64add 1 (u64sub p.2 p.1))) 0

/-- Resource quantities of a slave (struct resources).  The float64
fields are modelled as rationals; Ports is the ranges type. -/
structure resources where
  cpus : ℚ
  disk : ℚ
  mem : ℚ
  ports : List (Nat × Nat)

/-- Key/value label pair attached to a task (struct label). -/
structure label where
  key : String
  value : String

/-- One task status record (struct status). -/
structure status where
  state : String
  timestamp : ℚ

/-- One task (struct task). -/
structure task where
  name : String
  id : String
  executorID : String
  frameworkID : String
  slaveID : String
  state : String
  labels : List label
  res : resources
  statuses : List status

/-- One slave report (struct slave). -/
structure slave where
  pid : String
  used : resources
  unreserved : resources
  total : resources

/-- One framework (struct framework). -/
structure framework where
  active : Bool
  tasks : List task
  completed : List task

/-- One decoded master state snapshot (struct state). -/
structure state where
  slaves : List slave
  frameworks : List framework

/-- Extractor for the mesos_slave_cpus gauge: one observation per slave,
labelled by its PID, value Total.CPUs. -/
def cpusObs (st : state) : List (String × ℚ) :=
  st.slaves.map fun s => (s.pid, s.total.cpus)

/-- Extractor for mesos_slave_cpus_used. -/
def cpusUsedObs (st : state) : List (String × ℚ) :=
  st.slaves.map fun s => (s.pid, s.used.cpus)

/-- Extractor for mesos_slave_cpus_unreserved. -/
def cpusUnreservedObs (st : state) : List (String × ℚ) :=
  st.slaves.map fun s => (s.pid, s.unreserved.cpus)

/-- Extractor for mesos_slave_mem_bytes: value `s.Total.Mem * 1024`. -/
def memBytesObs (st : state) : List (String × ℚ) :=
  st.slaves.map fun s => (s.pid, s.total.mem * 1024)

/-- Extractor for mesos_slave_mem_used_bytes: value `s.Used.Mem * 1024`. -/
def memUsedBytesObs (st : state) : List (String × ℚ) :=
  st.slaves.map fun s => (s.pid, s.used.mem * 1024)

/-- Extractor for mesos_slave_mem_unreserved_bytes: value
`s.Unreserved.Mem * 1024`. -/
def memUnreservedBytesObs (st : state) : List (String × ℚ) :=
  st.slaves.map fun s => (s.pid, s.unreserved.mem * 1024)

/-- Extractor for mesos_slave_disk_bytes: value `s.Total.Disk * 1024`. -/
def diskBytesObs (st : state) : List (String × ℚ) :=
  st.slaves.map fun s => (s.pid, s.total.disk * 1024)

/-- Extractor for mesos_slave_disk_used_bytes: value `s.Used.Disk * 1024`. -/
def diskUsedBytesObs (st : state) : List (String × ℚ) :=
  st.slaves.map fun s => (s.pid, s.used.disk * 1024)

/-- Extractor for mesos_slave_disk_unreserved_bytes: value
`s.Unreserved.Disk * 1024`. -/
def diskUnreservedBytesObs (st : state) : List (String × ℚ) :=
  st.slaves.map fun s => (s.pid, s.unreserved.disk * 1024)

/-- Extractor for mesos_slave_ports: value `float64(s.Total.Ports.size())`. -/
def portsObs (st : state) : List (String × ℚ) :=
  st.slaves.map fun s => (s.pid, (size s.total.ports : ℚ))

/-- Extractor for mesos_slave_ports_used. -/
def portsUsedObs (st : state) : List (String × ℚ) :=
  st.slaves.map fun s => (s.pid, (size s.used.ports : ℚ))

/-- Extractor for mesos_slave_ports_unreserved. -/
def portsUnreservedObs (st : state) : List (String × ℚ) :=
  st.slaves.map fun s => (s.pid, (size s.unreserved.ports : ℚ))

/-- The label value vector built for one completed task by the
task_state_time extractor, in source order:
task.ID, task.SlaveID, task.ExecutorID, task.Name, task.FrameworkID,
task.State. -/
def taskLabelValues (t : task) : List String :=
  [t.id, t.slaveID, t.executorID, t.name, t.frameworkID, t.state]

/-- Body of the completed-task loop of the task_state_time extractor: one
observation when the status list is non-empty, valued at
`task.Statuses[0].Timestamp`; nothing otherwise. -/
def taskObsOne (t : task) : List (List String × ℚ) :=
  match t.statuses with
  | [] => []
  | s0 :: _ => [(taskLabelValues t, s0.timestamp)]

/-- Contribution of one framework to mesos_slave_task_state_time: nothing
when the framework is inactive (the loop does `continue`); otherwise the
completed-task loop. -/
def frameworkTaskObs (f : framework) : List (List String × ℚ) :=
  if f.active = false then []
  else f.completed.flatMap taskObsOne

/-- Extractor for mesos_slave_task_state_time: the framework loop. -/
def taskStateTimeObs (st : state) : List (List String × ℚ) :=
  st.frameworks.flatMap frameworkTaskObs

/-- Written from the specification text, for comparison with the source
extractor: for each active framework, for each of its completed tasks
with a non-empty status list, one observation labelled
(taskID, slaveID, executorID, taskName, frameworkID, taskState) whose
value is the timestamp of the first status entry. -/
def taskStateTimeSpecObs (st : state) : List (List String × ℚ) :=
  (st.frameworks.filter fun f => f.active).flatMap fun f =>
    (f.completed.filter fun t => !t.statuses.isEmpty).map fun t =>
      ([t.id, t.slaveID, t.executorID, t.name, t.frameworkID, t.state],
        (t.statuses.headD ⟨"", 0⟩).timestamp)

/-- Key of one exposed gauge: metric name plus label value vector. -/
abbrev MetricKey := String × List String

/-- A gauge vector store: current value per label vector.  Setting a key
overwrites its value if present and appends it otherwise — the behaviour
of GaugeVec.WithLabelValues(...).Set(...). -/
def setGauge (store : List (MetricKey × ℚ)) (k : MetricKey) (v : ℚ) :
    List (MetricKey × ℚ) :=
  if store.any fun e => e.1 == k then
    store.map fun e => if e.1 == k then (k, v) else e
  else store ++ [(k, v)]

/-- All observations produced from one snapshot by the full metric table
of newMasterStateCollector, tagged with their metric names. -/
def observationsOf (s : state) : List (MetricKey × ℚ) :=
  (cpusObs s).map (fun o => (("mesos_slave_cpus", [o.1]), o.2)) ++
  (cpusUsedObs s).map (fun o => (("mesos_slave_cpus_used", [o.1]), o.2)) ++
  (cpusUnreservedObs s).map (fun o => (("mesos_slave_cpus_unreserved", [o.1]), o.2)) ++
  (memBytesObs s).map (fun o => (("mesos_slave_mem_bytes", [o.1]), o.2)) ++
  (memUsedBytesObs s).map (fun o => (("mesos_slave_mem_used_bytes", [o.1]), o.2)) ++
  (memUnreservedBytesObs s).map (fun o => (("mesos_slave_mem_unreserved_bytes", [o.1]), o.2)) ++
  (diskBytesObs s).map (fun o => (("mesos_slave_disk_bytes", [o.1]), o.2)) ++
  (diskUsedBytesObs s).map (fun o => (("mesos_slave_disk_used_bytes", [o.1]), o.2)) ++
  (diskUnreservedBytesObs s).map (fun o => (("mesos_slave_disk_unreserved_bytes", [o.1]), o.2)) ++
  (portsObs s).map (fun o => (("mesos_slave_ports", [o.1]), o.2)) ++
  (portsUsedObs s).map (fun o => (("mesos_slave_ports_used", [o.1]), o.2)) ++
  (portsUnreservedObs s).map (fun o => (("mesos_slave_ports_unreserved", [o.1]), o.2)) ++
  (taskStateTimeObs s).map (fun o => (("mesos_slave_task_state_time", o.1), o.2))

/-- Outcome of the fetch-and-decode phase of masterCollector.Collect:
the HTTP GET fails (c.Get returns an error, which covers timeouts), the
JSON body fails to decode, or a snapshot is obtained. -/
inductive FetchOutcome where
  | transportFailed : FetchOutcome
  | decodeFailed : FetchOutcome
  | ok : state → FetchOutcome

/-- Model of masterCollector.Collect acting on the store of previously
published gauge values: both error paths return before the extractor loop
runs, so the store is untouched; on success every extractor's
observations are written into the store. -/
def collect : FetchOutcome → List (MetricKey × ℚ) → List (MetricKey × ℚ)
  | FetchOutcome.transportFailed, prev => prev
  | FetchOutcome.decodeFailed, prev => prev
  | FetchOutcome.ok s, prev =>
      (observationsOf s).foldl (fun store o => setGauge store o.1 o.2) prev

/-- Decimal digit characters of n, most significant first (n positive). -/
def natDigits (n : Nat) : List Char :=
  ((Nat.digits 10 n).map Nat.digitChar).reverse

/-- Canonical decimal rendering of a natural number, used to quantify over
the well-formed RangeSet encodings of the specification. -/
def toDecimal (n : Nat) : List Char :=
  if n = 0 then ['0'] else natDigits n

/-- Canonical encoding of one interval: "lo-hi". -/
def encodeRange (p : Nat × Nat) : List Char :=
  toDecimal p.1 ++ '-' :: toDecimal p.2

/-- Join pieces with a one-character separator (inverse of splitOnChar). -/
def joinSep (sep : Char) : List (List Char) → List Char
  | [] => []
  | [t] => t
  | t :: ts => t ++ sep :: joinSep sep ts

/-- Canonical well-formed RangeSet encoding "a-b,c-d,..." of a list of
intervals, as described by the specification. -/
def encodeRanges (ps : List (Nat × Nat)) : List Char :=
  joinSep ',' (ps.map encodeRange)

/-- Empty resource quantities, for building concrete snapshots. -/
def zeroRes : resources :=
  { cpus := 0, disk := 0, mem := 0, ports := [] }

/-- A concrete completed task whose status list holds TASK_FINISHED at
timestamp 100 followed by TASK_RUNNING at timestamp 50. -/
def demoTask : task :=
  { name := "n1", id := "t1", executorID := "e1", frameworkID := "f1",
    slaveID := "s1", state := "TASK_FINISHED", labels := [], res := zeroRes,
    statuses := [{ state := "TASK_FINISHED", timestamp := 100 },
                 { state := "TASK_RUNNING", timestamp := 50 }] }

/-- A concrete inactive framework holding one completed task. -/
def demoInactiveFramework : framework :=
  { active := false, tasks := [], completed := [demoTask] }

/-- A concrete snapshot with one inactive framework with completed tasks. -/
def demoInactiveState : state :=
  { slaves := [], frameworks := [demoInactiveFramework] }

/-- A concrete snapshot with one active framework holding one completed
task (the one from demoTask). -/
def demoActiveState : state :=
  { slaves := [],
    frameworks := [{ active := true, tasks := [], completed := [demoTask] }] }

/-- A concrete slave whose total memory is 2.0 mebibytes. -/
def demoMemSlave : slave :=
  { pid := "slave1", used := zeroRes, unreserved := zeroRes,
    total := { cpus := 4, disk := 100, mem := 2, ports := [] } }

/-- A concrete snapshot with one slave whose Total.Mem is 2.0. -/
def demoMemState : state :=
  { slaves := [demoMemSlave], frameworks := [] }


lemma u64add_lt (a b : Nat) : u64add a b < 2 ^ 64 :=
  Nat.mod_lt _ (by norm_num)

lemma u64add_cast (a b : Nat) :
    ((u64add a b : Nat) : ZMod (2 ^ 64)) = (a : ZMod (2 ^ 64)) + b := by
  unfold u64add
  rw [ZMod.natCast_mod]
  push_cast
  ring

lemma u64sub_cast (a b : Nat) :
    ((u64sub a b : Nat) : ZMod (2 ^ 64)) = (a : ZMod (2 ^ 64)) - b := by
  unfold u64sub
  rw [ZMod.natCast_mod, Nat.cast_add,
    Nat.cast_sub (le_of_lt (Nat.mod_lt b (by norm_num))), ZMod.natCast_mod,
    ZMod.natCast_mod, ZMod.natCast_self]
  ring

lemma size_foldl_lt (rs : List (Nat × Nat)) :
    ∀ acc : Nat, acc < 2 ^ 64 →
      rs.foldl (fun sz p => u64add sz (u64add 1 (u64sub p.2 p.1))) acc < 2 ^ 64 := by
  induction rs with
  | nil => intro acc h; exact h
  | cons p ps ih =>
    intro acc _
    exact ih _ (u64add_lt _ _)

lemma size_foldl_cast (rs : List (Nat × Nat)) :
    ∀ acc : Nat,
      ((rs.foldl (fun sz p => u64add sz (u64add 1 (u64sub p.2 p.1))) acc : Nat) :
          ZMod (2 ^ 64)) =
        (acc : ZMod (2 ^ 64)) +
          (rs.map fun p => (p.2 : ZMod (2 ^ 64)) - p.1 + 1).sum := by
  induction rs with
  | nil => intro acc; simp
  | cons p ps ih =>
    intro acc
    rw [List.foldl_cons, ih, u64add_cast, u64add_cast, u64sub_cast]
    simp [List.sum_cons]
    ring

/-- C7: ranges.size computes Σ(1 + hi − lo) in unsigned 64-bit modular
arithmetic: for every RangeSet the result is below 2^64 and is congruent
modulo 2^64 to the integer sum of (hi − lo + 1); an interval with
hi < lo therefore wraps around instead of raising an error, as the
concrete interval (5, 3) shows. -/
theorem size_modular_wraps :
    (∀ rs : List (Nat × Nat),
        size rs < 2 ^ 64 ∧
        ((size rs : Nat) : ZMod (2 ^ 64)) =
          (rs.map fun p => (p.2 : ZMod (2 ^ 64)) - p.1 + 1).sum) ∧
    size [(5, 3)] = 2 ^ 64 - 1 := by
  refine ⟨fun rs => ⟨size_foldl_lt rs 0 (by norm_num), ?_⟩, by decide⟩
  rw [size, size_foldl_cast rs 0]
  simp

/-- C5: decoding any of the encodings "", "[]", "[\"\"]" succeeds and
yields an empty RangeSet whose size is 0. -/
theorem empty_encodings_decode_empty :
    unmarshalJSON [] ("".toList) = (true, []) ∧
    unmarshalJSON [] ("[]".toList) = (true, []) ∧
    unmarshalJSON [] ("[\"\"]".toList) = (true, []) ∧
    size [] = 0 := by decide

/-- C9: when the HTTP fetch fails (which covers timeouts) or the response
body fails to decode, masterCollector.Collect returns before the
extractor loop runs, so the store of previously published gauge values is
left unchanged and no partial snapshot is projected. -/
theorem failed_cycle_leaves_metrics_unchanged :
    (∀ prev, collect FetchOutcome.transportFailed prev = prev) ∧
    (∀ prev, collect FetchOutcome.decodeFailed prev = prev) :=
  ⟨fun _ => rfl, fun _ => rfl⟩

/-- C8: frameworks whose Active flag is false contribute no observations
to task_state_time: the per-framework contribution of an inactive
framework is empty regardless of its completed tasks, and a snapshot all
of whose frameworks are inactive yields an empty observation list. -/
theorem inactive_frameworks_emit_nothing :
    (∀ f : framework, f.active = false → frameworkTaskObs f = []) ∧
    (∀ st : state, (∀ f ∈ st.frameworks, f.active = false) →
        taskStateTimeObs st = []) := by
  constructor
  · intro f h
    simp [frameworkTaskObs, h]
  · intro st h
    unfold taskStateTimeObs
    rw [List.flatMap_eq_nil_iff]
    intro f hf
    simp [frameworkTaskObs, h f hf]

/-- Witness for C8 at a concrete snapshot: one inactive framework holding
a completed task contributes nothing. -/
theorem inactive_frameworks_emit_nothing_witness :
    frameworkTaskObs demoInactiveFramework = [] ∧
    taskStateTimeObs demoInactiveState = [] := by
  refine ⟨inactive_frameworks_emit_nothing.1 demoInactiveFramework rfl,
    inactive_frameworks_emit_nothing.2 demoInactiveState ?_⟩
  intro f hf
  simp only [demoInactiveState] at hf
  rw [List.mem_singleton] at hf
  rw [hf]
  rfl

/-- C3: for every snapshot and every slave in it, the memory and disk
gauges conver the mebibyte-denominated fields by multiplying by exactly
1024; at the concrete snapshot with Total.Mem = 2.0 the mem_bytes
observation is 2048, which is 2 * 1024 and not 2 * 1048576. -/
theorem mem_disk_gauges_scale_by_1024 :
    (∀ (st : state) (s : slave), s ∈ st.slaves →
        (s.pid, s.total.mem * 1024) ∈ memBytesObs st ∧
        (s.pid, s.used.mem * 1024) ∈ memUsedBytesObs st ∧
        (s.pid, s.unreserved.mem * 1024) ∈ memUnreservedBytesObs st ∧
        (s.pid, s.total.disk * 1024) ∈ diskBytesObs st ∧
        (s.pid, s.used.disk * 1024) ∈ diskUsedBytesObs st ∧
        (s.pid, s.unreserved.disk * 1024) ∈ diskUnreservedBytesObs st) ∧
    memBytesObs demoMemState = [("slave1", 2048)] ∧
    (2048 : ℚ) = 2 * 1024 ∧ (2 : ℚ) * 1048576 ≠ 2048 := by
  refine ⟨?_, by norm_num [memBytesObs, demoMemState, demoMemSlave], by norm_num,
    by norm_num⟩
  intro st s hs
  exact ⟨List.mem_map_of_mem _ hs, List.mem_map_of_mem _ hs,
    List.mem_map_of_mem _ hs, List.mem_map_of_mem _ hs,
    List.mem_map_of_mem _ hs, List.mem_map_of_mem _ hs⟩

/-- Witness for C3 at the concrete snapshot: the slave with Total.Mem 2.0
contributes the observation ("slave1", 2048) to mem_bytes. -/
theorem mem_disk_gauges_scale_by_1024_witness :
    (demoMemSlave.pid, demoMemSlave.total.mem * 1024) ∈ memBytesObs demoMemState ∧
    (demoMemSlave.pid, demoMemSlave.total.disk * 1024) ∈ diskBytesObs demoMemState := by
  have h := mem_disk_gauges_scale_by_1024.1 demoMemState demoMemSlave
    (List.mem_singleton_self _)
  exact ⟨h.1, h.2.2.2.1⟩

lemma completed_flatMap_eq (ts : List task) :
    ts.flatMap taskObsOne =
      (ts.filter fun t => !t.statuses.isEmpty).map fun t =>
        ([t.id, t.slaveID, t.executorID, t.name, t.frameworkID, t.state],
          (t.statuses.headD ⟨"", 0⟩).timestamp) := by
  induction ts with
  | nil => simp
  | cons t ts ih =>
    rw [List.flatMap_cons, List.filter_cons]
    cases hs : t.statuses with
    | nil => simp [taskObsOne, hs, ih]
    | cons s0 rest => simp [taskObsOne, hs, ih, taskLabelValues]

/-- C2: the task_state_time extractor agrees with the specification's
description of it — for each active framework, one observation per
completed task with a non-empty status list, labelled
(taskID, slaveID, executorID, taskName, frameworkID, taskState), valued
at the timestamp of the first status entry; in-progress tasks are ignored
(emptying every framework's Tasks list changes nothing); at the concrete
snapshot whose completed task has statuses (TASK_FINISHED, 100.0) then
(TASK_RUNNING, 50.0) the emitted value is 100.0. -/
theorem task_state_time_matches_spec :
    (∀ st : state, taskStateTimeObs st = taskStateTimeSpecObs st) ∧
    (∀ st : state,
        taskStateTimeObs
          { slaves := st.slaves,
            frameworks := st.frameworks.map fun f => { f with tasks := [] } } =
          taskStateTimeObs st) ∧
    taskStateTimeObs demoActiveState =
      [(["t1", "s1", "e1", "n1", "f1", "TASK_FINISHED"], 100)] := by
  refine ⟨?_, ?_,
    by simp [taskStateTimeObs, demoActiveState, frameworkTaskObs, taskObsOne,
      demoTask, taskLabelValues]⟩
  · intro st
    unfold taskStateTimeObs taskStateTimeSpecObs
    generalize st.frameworks = l
    induction l with
    | nil => simp
    | cons f fs ih =>
      rw [List.flatMap_cons, List.filter_cons]
      cases hf : f.active
      · simp [frameworkTaskObs, hf, ih]
      · simp only [hf, if_pos rfl, List.flatMap_cons, ih]
        rw [frameworkTaskObs, hf]
        simp [completed_flatMap_eq]
  · intro st
    unfold taskStateTimeObs
    rw [List.flatMap_map]
    rfl

lemma trimChars_cons (p : Char → Bool) (c : Char) (l : List Char)
    (h : p c = true) : trimChars p (c :: l) = trimChars p l := by
  simp [trimChars, List.dropWhile_cons, h]

lemma trimRight_concat (p : Char → Bool) (c : Char) (l : List Char)
    (h : p c = true) : trimRight p (l ++ [c]) = trimRight p l := by
  unfold trimRight
  rw [List.reverse_append]
  simp [List.dropWhile_cons, h]

lemma trimChars_concat (p : Char → Bool) (c : Char) (l : List Char)
    (h : p c = true) : trimChars p (l ++ [c]) = trimChars p l := by
  unfold trimChars
  rw [List.dropWhile_append]
  by_cases he : (l.dropWhile p).isEmpty
  · rw [if_pos he]
    rw [List.isEmpty_iff] at he
    rw [he]
    simp [trimRight, List.dropWhile_cons, h]
  · rw [if_neg he]
    exact trimRight_concat p c _ h

lemma unmarshalJSON_cons_cut (rs : List (Nat × Nat)) (data : List Char)
    (c : Char) (h : isRangeCut c = true) :
    unmarshalJSON rs (c :: data) = unmarshalJSON rs data := by
  unfold unmarshalJSON
  rw [trimChars_cons _ _ _ h]

lemma unmarshalJSON_concat_cut (rs : List (Nat × Nat)) (data : List Char)
    (c : Char) (h : isRangeCut c = true) :
    unmarshalJSON rs (data ++ [c]) = unmarshalJSON rs data := by
  unfold unmarshalJSON
  rw [trimChars_concat _ _ _ h]

/-- C6 counterexample: bytes.Trim strips every leading and trailing
occurrence of the wrapping characters, not a single layer, so the doubly
wrapped input "[[1-2]]" is reduced to the bare token list "1-2" and
decodes successfully, contrary to the claim. -/
theorem single_layer_strip_refuted :
    trimChars isRangeCut ("[[1-2]]".toList) = "1-2".toList ∧
    unmarshalJSON [] ("[[1-2]]".toList) = (true, [(1, 2)]) := by decide

/-- C6 amended: RangeSet decode strips every leading and every trailing
occurrence of '[', ']' and '"' from the raw input before tokenizing:
prepending or appending any such character never changes the result, and
in particular the doubly wrapped "[[1-2]]" is reduced to the bare token
list and decodes to the single interval (1, 2). -/
theorem trim_strips_all_wrapping_chars :
    (∀ (rs : List (Nat × Nat)) (data : List Char) (c : Char),
        isRangeCut c = true →
        unmarshalJSON rs (c :: data) = unmarshalJSON rs data ∧
        unmarshalJSON rs (data ++ [c]) = unmarshalJSON rs data) ∧
    unmarshalJSON [] ("[[1-2]]".toList) = (true, [(1, 2)]) :=
  ⟨fun rs data c h =>
    ⟨unmarshalJSON_cons_cut rs data c h, unmarshalJSON_concat_cut rs data c h⟩,
    by decide⟩

/-- Witness for the amended C6 at concrete inputs: an extra leading '['
and an extra trailing ']' are both absorbed. -/
theorem trim_strips_all_wrapping_chars_witness :
    unmarshalJSON [] ('[' :: "1-2]".toList) = unmarshalJSON [] ("1-2]".toList) ∧
    unmarshalJSON [] ("[1-2".toList ++ [']']) = unmarshalJSON [] ("[1-2".toList) := by
  have h1 := trim_strips_all_wrapping_chars.1 [] ("1-2]".toList) '[' (by decide)
  have h2 := trim_strips_all_wrapping_chars.1 [] ("[1-2".toList) ']' (by decide)
  exact ⟨h1.1, h2.2⟩

lemma unmarshalTokens_shift (toks : List (List Char)) :
    ∀ rs : List (Nat × Nat),
      unmarshalTokens rs toks =
        ((unmarshalTokens [] toks).1, rs ++ (unmarshalTokens [] toks).2) := by
  induction toks with
  | nil => intro rs; simp [unmarshalTokens]
  | cons t ts ih =>
    intro rs
    cases ht : tokenVal t with
    | none => simp [unmarshalTokens, ht]
    | some rng =>
      simp only [unmarshalTokens, ht]
      rw [ih (rs ++ [rng]), ih ([] ++ [rng])]
      simp

lemma unmarshalTokens_bad_after :
    ∀ (good : List (List Char)) (rs : List (Nat × Nat)) (bad : List Char)
      (rest : List (List Char)),
      (∀ u ∈ good, (tokenVal u).isSome) → tokenVal bad = none →
      unmarshalTokens rs (good ++ bad :: rest) =
        (false, rs ++ good.filterMap tokenVal) := by
  intro good
  induction good with
  | nil =>
    intro rs bad rest _ ht
    simp [unmarshalTokens, ht]
  | cons u us ih =>
    intro rs bad rest hg ht
    obtain ⟨rng, hrng⟩ :=
      Option.isSome_iff_exists.mp (hg u (List.mem_cons_self u us))
    simp only [List.cons_append, unmarshalTokens, hrng, List.filterMap_cons,
      List.append_eq]
    rw [ih (rs ++ [rng]) bad rest (fun v hv => hg v (List.mem_cons_of_mem u hv)) ht]
    simp

lemma unmarshalTokens_flag_false (toks : List (List Char)) :
    ∀ rs : List (Nat × Nat), (∃ t ∈ toks, tokenVal t = none) →
      (unmarshalTokens rs toks).1 = false := by
  induction toks with
  | nil => intro rs h; simp at h
  | cons t ts ih =>
    intro rs h
    cases ht : tokenVal t with
    | none => simp [unmarshalTokens, ht]
    | some rng =>
      simp only [unmarshalTokens, ht]
      apply ih
      obtain ⟨u, hu, hun⟩ := h
      rcases List.mem_cons.mp hu with h1 | h2
      · rw [h1, ht] at hun; exact absurd hun (by simp)
      · exact ⟨u, h2, hun⟩

/-- C10: RangeSet decode is neither atomic nor resetting.  Decoding into
a receiver that already holds intervals appends the newly decoded
intervals after the existing ones, and when the tokens of the trimmed
input decompose into a non-empty well-formed head followed by a malformed
token, decode errors but the receiver retains the intervals decoded from
the well-formed head. -/
theorem decode_is_nonatomic_and_appending :
    (∀ (rs : List (Nat × Nat)) (data : List Char),
        (unmarshalJSON rs data).1 = (unmarshalJSON [] data).1 ∧
        (unmarshalJSON rs data).2 = rs ++ (unmarshalJSON [] data).2) ∧
    (∀ (rs : List (Nat × Nat)) (data : List Char)
        (good : List (List Char)) (bad : List Char) (rest : List (List Char)),
        splitOnChar ',' (trimChars isRangeCut data) = good ++ bad :: rest →
        (∀ u ∈ good, (tokenVal u).isSome) → tokenVal bad = none → good ≠ [] →
        unmarshalJSON rs data = (false, rs ++ good.filterMap tokenVal)) := by
  constructor
  · intro rs data
    unfold unmarshalJSON
    by_cases he : (trimChars isRangeCut data).isEmpty
    · simp [he]
    · simp only [he, if_neg, Bool.false_eq_true, not_false_iff]
      rw [unmarshalTokens_shift]
      exact ⟨rfl, rfl⟩
  · intro rs data good bad rest hsplit hg ht hne
    have hd : (trimChars isRangeCut data).isEmpty = false := by
      cases hcase : trimChars isRangeCut data with
      | nil =>
        rw [hcase] at hsplit
        have hlen := congrArg List.length hsplit
        simp [splitOnChar, List.length_append] at hlen
        have hgood : good = [] := by
          cases good with
          | nil => rfl
          | cons g gs => simp [List.length_cons] at hlen; omega
        exact absurd hgood hne
      | cons c cs => simp
    unfold unmarshalJSON
    simp only [hd, Bool.false_eq_true, if_false]
    rw [hsplit]
    exact unmarshalTokens_bad_after good rs bad rest hg ht

/-- Witness for C10: decoding "1-2,10" into a receiver already holding
(7, 9) errors, keeps (7, 9), and appends the decoded (1, 2) after it. -/
theorem decode_is_nonatomic_and_appending_witness :
    unmarshalJSON [(7, 9)] ("1-2,10".toList) = (false, [(7, 9), (1, 2)]) := by
  have h := decode_is_nonatomic_and_appending.2 [(7, 9)] ("1-2,10".toList)
    ["1-2".toList] ("10".toList) [] (by decide) (by decide) (by decide)
    (by decide)
  exact h

/-- C4 counterexample: decoding "1-2,10", whose second token is
malformed, returns an error but does not leave the RangeSet unset — the
receiver ends up holding the interval (1, 2) decoded before the failure. -/
theorem malformed_not_unset_counterexample :
    unmarshalJSON [] ("1-2,10".toList) = (false, [(1, 2)]) ∧
    [(1, 2)] ≠ ([] : List (Nat × Nat)) := by decide

/-- C4 amended: for every RangeSet encoding containing a malformed token
(after trimming, some token has no '-' or a part that does not parse),
decode returns an error; the receiver is left unchanged when the first
malformed token comes first, as with the claim's examples "10" and
"x-20", but retains the intervals decoded from the preceding well-formed
tokens otherwise. -/
theorem malformed_token_aborts_decode :
    (∀ (rs : List (Nat × Nat)) (data : List Char),
        trimChars isRangeCut data ≠ [] →
        (∃ t ∈ splitOnChar ',' (trimChars isRangeCut data), tokenVal t = none) →
        (unmarshalJSON rs data).1 = false) ∧
    (∀ rs : List (Nat × Nat), unmarshalJSON rs ("10".toList) = (false, rs)) ∧
    (∀ rs : List (Nat × Nat), unmarshalJSON rs ("x-20".toList) = (false, rs)) := by
  refine ⟨?_, fun rs => rfl, fun rs => rfl⟩
  intro rs data hne hex
  have hd : (trimChars isRangeCut data).isEmpty = false := by
    cases hcase : trimChars isRangeCut data with
    | nil => exact absurd hcase hne
    | cons c cs => simp
  unfold unmarshalJSON
  simp only [hd, Bool.false_eq_true, if_false]
  exact unmarshalTokens_flag_false _ rs hex

/-- Witness for the amended C4: "1-2,10" contains the malformed token
"10", and decode reports an error on it. -/
theorem malformed_token_aborts_decode_witness :
    (unmarshalJSON [] ("1-2,10".toList)).1 = false :=
  malformed_token_aborts_decode.1 [] ("1-2,10".toList) (by decide)
    ⟨"10".toList, by decide, by decide⟩

lemma digitChar_isDigit (d : Nat) (h : d < 10) :
    (Nat.digitChar d).isDigit = true := by
  interval_cases d <;> decide

lemma digitVal_digitChar (d : Nat) (h : d < 10) :
    digitVal (Nat.digitChar d) = d := by
  interval_cases d <;> decide

lemma toDecimal_ne_nil (n : Nat) : toDecimal n ≠ [] := by
  by_cases h : n = 0
  · simp [toDecimal, h]
  · simp [toDecimal, h, natDigits, Nat.digits_ne_nil_iff_ne_zero]

lemma toDecimal_all_digits (n : Nat) : ∀ c ∈ toDecimal n, c.isDigit = true := by
  intro c hc
  by_cases h : n = 0
  · simp [toDecimal, h] at hc
    rw [hc]; decide
  · simp [toDecimal, h, natDigits] at hc
    obtain ⟨d, hd, hdc⟩ := hc
    rw [← hdc]
    exact digitChar_isDigit d (Nat.digits_lt_base (by norm_num) hd)

lemma foldr_digits (L : List Nat) : (∀ d ∈ L, d < 10) →
    (L.map Nat.digitChar).foldr (fun c acc => acc * 10 + digitVal c) 0 =
      Nat.ofDigits 10 L := by
  induction L with
  | nil => intro _; simp [Nat.ofDigits]
  | cons d L ih =>
    intro h
    simp only [List.map_cons, List.foldr_cons]
    rw [ih (fun e he => h e (List.mem_cons_of_mem _ he)), Nat.ofDigits_cons,
      digitVal_digitChar d (h d (List.mem_cons_self _ _))]
    ring

lemma parseUint10_toDecimal (n : Nat) (h : n < 2 ^ 64) :
    parseUint10 (toDecimal n) = some n := by
  by_cases h0 : n = 0
  · rw [h0]; decide
  · have hne := toDecimal_ne_nil n
    have hall := toDecimal_all_digits n
    have hv : (toDecimal n).foldl (fun acc c => acc * 10 + digitVal c) 0 = n := by
      unfold toDecimal
      rw [if_neg h0]
      unfold natDigits
      rw [List.foldl_reverse,
        foldr_digits _ (fun d hd => Nat.digits_lt_base (by norm_num) hd),
        Nat.ofDigits_digits]
    unfold parseUint10
    rw [if_neg (by simpa [List.isEmpty_iff] using hne),
      if_pos (List.all_eq_true.mpr hall)]
    show (if ((toDecimal n).foldl (fun acc c => acc * 10 + digitVal c) 0) < 2 ^ 64
        then some ((toDecimal n).foldl (fun acc c => acc * 10 + digitVal c) 0)
        else none) = some n
    rw [hv, if_pos h]

lemma isDigit_ne (c e : Char) (h : c.isDigit = true) (he : e.isDigit = false) :
    c ≠ e := fun heq => by
  rw [heq, he] at h
  exact absurd h (by simp)

lemma digit_isRangeCut (c : Char) (h : c.isDigit = true) :
    isRangeCut c = false := by
  have h1 := isDigit_ne c '[' h (by decide)
  have h2 := isDigit_ne c ']' h (by decide)
  have h3 := isDigit_ne c '"' h (by decide)
  simp [isRangeCut, h1, h2, h3]

lemma digit_isGoSpace (c : Char) (h : c.isDigit = true) :
    isGoSpace c = false := by
  have h1 := isDigit_ne c ' ' h (by decide)
  have h2 := isDigit_ne c '\t' h (by decide)
  have h3 := isDigit_ne c '\n' h (by decide)
  have h4 := isDigit_ne c '\x0b' h (by decide)
  have h5 := isDigit_ne c '\x0c' h (by decide)
  have h6 := isDigit_ne c '\r' h (by decide)
  have h7 := isDigit_ne c '\x85' h (by decide)
  have h8 := isDigit_ne c '\xa0' h (by decide)
  simp [isGoSpace, h1, h2, h3, h4, h5, h6, h7, h8]

lemma dropWhile_all_false (p : Char → Bool) (l : List Char)
    (h : ∀ c ∈ l, p c = false) : l.dropWhile p = l := by
  cases l with
  | nil => rfl
  | cons c cs =>
    rw [List.dropWhile_cons]
    simp [h c (List.mem_cons_self _ _)]

lemma trimChars_all_false (p : Char → Bool) (l : List Char)
    (h : ∀ c ∈ l, p c = false) : trimChars p l = l := by
  unfold trimChars trimRight
  rw [dropWhile_all_false p l h,
    dropWhile_all_false p l.reverse (fun c hc => h c (List.mem_reverse.mp hc)),
    List.reverse_reverse]

lemma trimSpace_toDecimal (n : Nat) :
    trimChars isGoSpace (toDecimal n) = toDecimal n :=
  trimChars_all_false _ _
    (fun c hc => digit_isGoSpace c (toDecimal_all_digits n c hc))

lemma dash_not_mem_toDecimal (n : Nat) : '-' ∉ toDecimal n := by
  intro hm
  exact absurd (toDecimal_all_digits n '-' hm) (by decide)

lemma splitN2_not_mem (sep : Char) (x y : List Char) (h : sep ∉ x) :
    splitN2 sep (x ++ sep :: y) = some (x, y) := by
  induction x with
  | nil => simp [splitN2]
  | cons c cs ih =>
    have hc : c ≠ sep := fun he => h (he ▸ List.mem_cons_self _ _)
    simp only [List.cons_append, splitN2, List.append_eq]
    rw [if_neg hc, ih (fun hm => h (List.mem_cons_of_mem _ hm))]

lemma tokenVal_encodeRange (p : Nat × Nat) (h1 : p.1 < 2 ^ 64)
    (h2 : p.2 < 2 ^ 64) : tokenVal (encodeRange p) = some p := by
  unfold tokenVal encodeRange
  rw [splitN2_not_mem '-' _ _ (dash_not_mem_toDecimal p.1)]
  show (match parseUint10 (trimChars isGoSpace (toDecimal p.1)),
      parseUint10 (trimChars isGoSpace (toDecimal p.2)) with
    | some lo, some hi => some (lo, hi)
    | _, _ => none) = some p
  rw [trimSpace_toDecimal, trimSpace_toDecimal, parseUint10_toDecimal _ h1,
    parseUint10_toDecimal _ h2]

lemma splitOnChar_ne_nil (sep : Char) (l : List Char) :
    splitOnChar sep l ≠ [] := by
  cases l with
  | nil => simp [splitOnChar]
  | cons c cs =>
    simp only [splitOnChar]
    cases h : splitOnChar sep cs with
    | nil => simp
    | cons t ts => by_cases hc : c = sep <;> simp [hc]

lemma splitOnChar_no_sep (sep : Char) (t : List Char) (h : sep ∉ t) :
    splitOnChar sep t = [t] := by
  induction t with
  | nil => rfl
  | cons c cs ih =>
    have hc : c ≠ sep := fun he => h (he ▸ List.mem_cons_self _ _)
    simp only [splitOnChar]
    rw [ih (fun hm => h (List.mem_cons_of_mem _ hm))]
    simp [hc]

lemma splitOnChar_append (sep : Char) (t rest : List Char) (h : sep ∉ t) :
    splitOnChar sep (t ++ sep :: rest) = t :: splitOnChar sep rest := by
  induction t with
  | nil =>
    simp only [List.nil_append, splitOnChar]
    cases hs : splitOnChar sep rest with
    | nil => exact absurd hs (splitOnChar_ne_nil sep rest)
    | cons q qs => simp
  | cons c cs ih =>
    have hc : c ≠ sep := fun he => h (he ▸ List.mem_cons_self _ _)
    simp only [List.cons_append, splitOnChar, List.append_eq]
    rw [ih (fun hm => h (List.mem_cons_of_mem _ hm))]
    simp [hc]

lemma splitOnChar_joinSep (sep : Char) (toks : List (List Char)) :
    toks ≠ [] → (∀ t ∈ toks, sep ∉ t) →
    splitOnChar sep (joinSep sep toks) = toks := by
  induction toks with
  | nil => intro h _; exact absurd rfl h
  | cons t ts ih =>
    intro _ h
    cases ts with
    | nil => exact splitOnChar_no_sep sep t (h t (List.mem_cons_self _ _))
    | cons t2 ts2 =>
      rw [show joinSep sep (t :: t2 :: ts2) = t ++ sep :: joinSep sep (t2 :: ts2)
        from rfl]
      rw [splitOnChar_append sep t _ (h t (List.mem_cons_self _ _))]
      rw [ih (by simp) (fun u hu => h u (List.mem_cons_of_mem _ hu))]

lemma mem_encodeRange (p : Nat × Nat) (c : Char) (hc : c ∈ encodeRange p) :
    c.isDigit = true ∨ c = '-' := by
  unfold encodeRange at hc
  rcases List.mem_append.mp hc with h1 | h2
  · exact Or.inl (toDecimal_all_digits _ c h1)
  · rcases List.mem_cons.mp h2 with h3 | h4
    · exact Or.inr h3
    · exact Or.inl (toDecimal_all_digits _ c h4)

lemma comma_not_mem_encodeRange (p : Nat × Nat) : ',' ∉ encodeRange p := by
  intro hm
  rcases mem_encodeRange p ',' hm with h | h
  · exact absurd h (by decide)
  · exact absurd h (by decide)

lemma mem_joinSep (sep : Char) (ts : List (List Char)) (c : Char) :
    c ∈ joinSep sep ts → c = sep ∨ ∃ t ∈ ts, c ∈ t := by
  induction ts with
  | nil => intro h; simp [joinSep] at h
  | cons t ts ih =>
    intro h
    cases ts with
    | nil => exact Or.inr ⟨t, List.mem_cons_self _ _, h⟩
    | cons t2 ts2 =>
      rw [show joinSep sep (t :: t2 :: ts2) = t ++ sep :: joinSep sep (t2 :: ts2)
        from rfl] at h
      rcases List.mem_append.mp h with h1 | h2
      · exact Or.inr ⟨t, List.mem_cons_self _ _, h1⟩
      · rcases List.mem_cons.mp h2 with h3 | h4
        · exact Or.inl h3
        · rcases ih h4 with h5 | ⟨u, hu, hcu⟩
          · exact Or.inl h5
          · exact Or.inr ⟨u, List.mem_cons_of_mem _ hu, hcu⟩

lemma trim_encodeRanges (ps : List (Nat × Nat)) :
    trimChars isRangeCut (encodeRanges ps) = encodeRanges ps := by
  apply trimChars_all_false
  intro c hc
  rcases mem_joinSep ',' _ c hc with h | ⟨t, ht, hct⟩
  · rw [h]; decide
  · obtain ⟨p, _, hpe⟩ := List.mem_map.mp ht
    rw [← hpe] at hct
    rcases mem_encodeRange p c hct with h1 | h1
    · exact digit_isRangeCut c h1
    · rw [h1]; decide

lemma encodeRanges_ne_nil (ps : List (Nat × Nat)) (h : ps ≠ []) :
    encodeRanges ps ≠ [] := by
  cases ps with
  | nil => exact absurd rfl h
  | cons p ps2 =>
    cases ps2 with
    | nil =>
      show encodeRange p ≠ []
      intro he
      exact absurd (List.append_eq_nil.mp he).1 (toDecimal_ne_nil p.1)
    | cons q qs =>
      show encodeRange p ++ ',' :: joinSep ',' ((q :: qs).map encodeRange) ≠ []
      simp

lemma unmarshalTokens_encode (ps : List (Nat × Nat)) :
    ∀ rs : List (Nat × Nat), (∀ p ∈ ps, p.1 < 2 ^ 64 ∧ p.2 < 2 ^ 64) →
      unmarshalTokens rs (ps.map encodeRange) = (true, rs ++ ps) := by
  induction ps with
  | nil => intro rs _; simp [unmarshalTokens]
  | cons p ps2 ih =>
    intro rs h
    have hp := h p (List.mem_cons_self _ _)
    simp only [List.map_cons, unmarshalTokens, tokenVal_encodeRange p hp.1 hp.2]
    rw [ih (rs ++ [p]) (fun q hq => h q (List.mem_cons_of_mem _ hq))]
    simp

lemma u64sub_exact (a b : Nat) (hab : a ≤ b) (hb : b < 2 ^ 64) :
    u64sub b a = b - a := by
  unfold u64sub
  rw [Nat.mod_eq_of_lt hb, Nat.mod_eq_of_lt (lt_of_le_of_lt hab hb)]
  have he : b + (2 ^ 64 - a) = 2 ^ 64 + (b - a) := by omega
  rw [he, Nat.add_mod_left, Nat.mod_eq_of_lt (by omega)]

lemma size_exact_foldl (ps : List (Nat × Nat)) :
    ∀ acc : Nat, (∀ p ∈ ps, p.1 ≤ p.2 ∧ p.2 < 2 ^ 64) →
      acc + (ps.map fun p => p.2 - p.1 + 1).sum < 2 ^ 64 →
      ps.foldl (fun sz p => u64add sz (u64add 1 (u64sub p.2 p.1))) acc =
        acc + (ps.map fun p => p.2 - p.1 + 1).sum := by
  induction ps with
  | nil => intro acc _ _; simp
  | cons p ps2 ih =>
    intro acc h hb
    have hp := h p (List.mem_cons_self _ _)
    simp only [List.map_cons, List.sum_cons] at hb ⊢
    rw [List.foldl_cons, u64sub_exact p.1 p.2 hp.1 hp.2]
    have e2 : u64add 1 (p.2 - p.1) = p.2 - p.1 + 1 := by
      unfold u64add
      rw [Nat.mod_eq_of_lt (by omega)]
      omega
    have e3 : u64add acc (p.2 - p.1 + 1) = acc + (p.2 - p.1 + 1) := by
      unfold u64add
      rw [Nat.mod_eq_of_lt (by omega)]
    rw [e2, e3,
      ih (acc + (p.2 - p.1 + 1)) (fun q hq => h q (List.mem_cons_of_mem _ hq))
        (by omega)]
    omega

/-- C1: for every well-formed RangeSet encoding "a-b,c-d,..." decode
recovers exactly the listed intervals, and size is the sum of
(hi − lo + 1) over them in unsigned 64-bit arithmetic (the result is
below 2^64 by size_foldl_lt, and agrees with the exact natural-number
sum whenever every interval has lo ≤ hi and the total fits in 64 bits);
in particular "10-20" decodes with size 11 and "10-20,30-30" with
size 12. -/
theorem decode_then_size_roundtrip :
    (∀ ps : List (Nat × Nat), ps ≠ [] →
        (∀ p ∈ ps, p.1 < 2 ^ 64 ∧ p.2 < 2 ^ 64) →
        unmarshalJSON [] (encodeRanges ps) = (true, ps) ∧
        ((size ps : Nat) : ZMod (2 ^ 64)) =
          (ps.map fun p => (p.2 : ZMod (2 ^ 64)) - p.1 + 1).sum ∧
        ((∀ p ∈ ps, p.1 ≤ p.2) →
          (ps.map fun p => p.2 - p.1 + 1).sum < 2 ^ 64 →
          size ps = (ps.map fun p => p.2 - p.1 + 1).sum)) ∧
    (unmarshalJSON [] ("10-20".toList) = (true, [(10, 20)]) ∧
      size [(10, 20)] = 11) ∧
    (unmarshalJSON [] ("10-20,30-30".toList) = (true, [(10, 20), (30, 30)]) ∧
      size [(10, 20), (30, 30)] = 12) := by
  refine ⟨?_, by decide, by decide⟩
  intro ps hne hb
  refine ⟨?_, ?_, ?_⟩
  · unfold unmarshalJSON
    simp only [trim_encodeRanges]
    rw [if_neg (by simpa [List.isEmpty_iff] using encodeRanges_ne_nil ps hne)]
    rw [show encodeRanges ps = joinSep ',' (ps.map encodeRange) from rfl]
    rw [splitOnChar_joinSep ',' (ps.map encodeRange) (by simpa using hne)
      (fun t ht => by
        obtain ⟨p, _, he⟩ := List.mem_map.mp ht
        rw [← he]
        exact comma_not_mem_encodeRange p)]
    rw [unmarshalTokens_encode ps [] hb]
    simp
  · rw [size, size_foldl_cast ps 0]
    simp
  · intro hle hsum
    rw [size, size_exact_foldl ps 0 (fun p hp => ⟨hle p hp, (hb p hp).2⟩)
      (by simpa using hsum)]
    simp

/-- Witness for C1: the encoding of the intervals (10, 20) and (30, 30)
decodes back to them and its size is the exact sum 12. -/
theorem decode_then_size_roundtrip_witness :
    unmarshalJSON [] (encodeRanges [(10, 20), (30, 30)]) =
      (true, [(10, 20), (30, 30)]) ∧
    size [(10, 20), (30, 30)] =
      ([(10, 20), (30, 30)].map fun p => p.2 - p.1 + 1).sum := by
  have h := decode_then_size_roundtrip.1 [(10, 20), (30, 30)] (by decide)
    (by decide)
  exact ⟨h.1, h.2.2 (by decide) (by decide)⟩
